import Mathlib

/-!
Verification of the crux-torrent download engine against its specification.

The Lean definitions below are shallow embeddings of the Rust sources:
  * `src/peer_protocol/codec.rs`   — wire codec (PeerMessage, encode, decode)
  * `src/peer_protocol/handshake.rs` — the 68-byte handshake frame
  * `src/peers/progress.rs`        — PieceDownloadProgress block pipeline
  * `src/peers/download_worker.rs` — peer session message handling
  * `src/peers/worker_fsm.rs`      — the command-driven session state machine
  * `src/piece_picker/piece_picker_handle.rs` — next_piece lease acquisition

Bytes are modelled as `Nat` (values < 256 on the wire), byte strings as
`List Nat`, bit vectors as `List Bool` (most-significant-bit-first order is
irrelevant at this level: the Rust `Bitfield` is indexed by bit position).
Rust `Instant` timestamps are modelled as `Nat` milliseconds; Rust
`Instant` subtraction saturates at zero, matching `Nat` subtraction.
-/

namespace CruxTorrent

/-- Big-endian encoding of a `u32` value as four bytes, as written by
`put_u32`.  The `% 256` projections coincide with the `as u32` truncation
for arguments at least `2 ^ 32`. -/
def toBE32 (n : Nat) : List Nat :=
  [n / 16777216 % 256, n / 65536 % 256, n / 256 % 256, n % 256]

/-- Big-endian reading of four bytes as a `u32` value, as read by `get_u32`. -/
def fromBE32 (a b c d : Nat) : Nat :=
  ((a * 256 + b) * 256 + c) * 256 + d

theorem toBE32_length (n : Nat) : (toBE32 n).length = 4 := rfl

theorem fromBE32_toBE32 (n : Nat) (h : n < 4294967296) :
    fromBE32 (n / 16777216 % 256) (n / 65536 % 256) (n / 256 % 256) (n % 256) = n := by
  unfold fromBE32
  omega

/-- Reading a `u32` off the front of a byte stream; `none` when fewer than
four bytes are available (`bail_on_size_mismatch` in the source). -/
def readU32 : List Nat → Option (Nat × List Nat)
  | a :: b :: c :: d :: r => some (fromBE32 a b c d, r)
  | _ => none

theorem readU32_toBE32_append (n : Nat) (h : n < 4294967296) (r : List Nat) :
    readU32 (toBE32 n ++ r) = some (n, r) := by
  simp only [toBE32, List.cons_append, List.nil_append, readU32]
  rw [fromBE32_toBE32 n h]

/-! ## Wire codec (`src/peer_protocol/codec.rs`) -/

/-- The nine peer message variants of `PeerMessage`.  The `Bitfield` payload
is kept at the wire level as its raw byte slice (`as_raw_slice`). -/
inductive PeerMessage : Type
  | Choke : PeerMessage
  | Unchoke : PeerMessage
  | Interested : PeerMessage
  | NotInterested : PeerMessage
  | Have (index : Nat) : PeerMessage
  | Bitfield (raw : List Nat) : PeerMessage
  | Request (index begin_ length : Nat) : PeerMessage
  | Piece (index begin_ : Nat) (piece : List Nat) : PeerMessage
  | Cancel (index begin_ length : Nat) : PeerMessage
  deriving DecidableEq

/-- `PeerMessage::tag`, the discriminant byte of each variant. -/
def PeerMessage.tag : PeerMessage → Nat
  | .Choke => 0
  | .Unchoke => 1
  | .Interested => 2
  | .NotInterested => 3
  | .Have _ => 4
  | .Bitfield _ => 5
  | .Request _ _ _ => 6
  | .Piece _ _ _ => 7
  | .Cancel _ _ _ => 8

/-- Size in bytes of the payload fields following the tag byte. -/
def PeerMessage.fieldsSize : PeerMessage → Nat
  | .Choke | .Unchoke | .Interested | .NotInterested => 0
  | .Have _ => 4
  | .Bitfield raw => raw.length
  | .Request _ _ _ => 12
  | .Piece _ _ piece => 8 + piece.length
  | .Cancel _ _ _ => 12

/-- `PeerMessageCodec::MAX_FRAME_SIZE = 2 * (1 << 20)`. -/
def MAX_FRAME_SIZE : Nat := 2 * 1048576

/-- `<PeerMessageCodec as Encoder>::encode`: the 4-byte big-endian length
prefix `1 + size_of(payload_fields)` followed by the tag byte and the
variant's fields, exactly in source order. -/
def encode : PeerMessage → List Nat
  | .Choke => toBE32 1 ++ [0]
  | .Unchoke => toBE32 1 ++ [1]
  | .Interested => toBE32 1 ++ [2]
  | .NotInterested => toBE32 1 ++ [3]
  | .Have index => toBE32 (1 + 4) ++ 4 :: toBE32 index
  | .Bitfield raw => toBE32 (1 + raw.length) ++ 5 :: raw
  | .Request index begin_ length =>
      toBE32 (1 + 3 * 4) ++ 6 :: (toBE32 index ++ toBE32 begin_ ++ toBE32 length)
  | .Piece index begin_ piece =>
      toBE32 (1 + (2 * 4 + piece.length)) ++ 7 :: (toBE32 index ++ toBE32 begin_ ++ piece)
  | .Cancel index begin_ length =>
      toBE32 (1 + 3 * 4) ++ 8 :: (toBE32 index ++ toBE32 begin_ ++ toBE32 length)

/-- Payload parsing of `<PeerMessageCodec as Decoder>::decode` once the
length-delimited frame has been extracted: the tag byte followed by the
variant fields.  An empty frame is the keepalive, surfaced as `none`.
Unknown tags and too-short payloads are protocol errors. -/
def parseFrame (frame : List Nat) : Except String (Option PeerMessage) :=
  match frame with
  | [] => .ok none
  | tag :: rest =>
    if tag = 0 then .ok (some .Choke)
    else if tag = 1 then .ok (some .Unchoke)
    else if tag = 2 then .ok (some .Interested)
    else if tag = 3 then .ok (some .NotInterested)
    else if tag = 4 then
      match readU32 rest with
      | some (index, _) => .ok (some (.Have index))
      | none => .error "buf size sent by peer does not match size for tag"
    else if tag = 5 then .ok (some (.Bitfield rest))
    else if tag = 6 then
      match readU32 rest with
      | some (index, r1) =>
        match readU32 r1 with
        | some (begin_, r2) =>
          match readU32 r2 with
          | some (length, _) => .ok (some (.Request index begin_ length))
          | none => .error "buf size sent by peer does not match size for tag"
        | none => .error "buf size sent by peer does not match size for tag"
      | none => .error "buf size sent by peer does not match size for tag"
    else if tag = 7 then
      match readU32 rest with
      | some (index, r1) =>
        match readU32 r1 with
        | some (begin_, r2) => .ok (some (.Piece index begin_ r2))
        | none => .error "buf size sent by peer does not match size for tag"
      | none => .error "buf size sent by peer does not match size for tag"
    else if tag = 8 then
      match readU32 rest with
      | some (index, r1) =>
        match readU32 r1 with
        | some (begin_, r2) =>
          match readU32 r2 with
          | some (length, _) => .ok (some (.Cancel index begin_ length))
          | none => .error "buf size sent by peer does not match size for tag"
        | none => .error "buf size sent by peer does not match size for tag"
      | none => .error "buf size sent by peer does not match size for tag"
    else .error "invalid protocol tag for peer message"

/-- The stream decoder: the inner `LengthDelimitedCodec` reads the 4-byte
big-endian length, rejects frames above `MAX_FRAME_SIZE`, returns
`(none, src)` (consume nothing) when the buffer does not yet hold a full
frame, and otherwise consumes exactly the frame and parses it. -/
def decode (src : List Nat) : Except String (Option PeerMessage × List Nat) :=
  match readU32 src with
  | none => .ok (none, src)
  | some (len, rest) =>
    if MAX_FRAME_SIZE < len then .error "frame of length exceeds max frame length"
    else if rest.length < len then .ok (none, src)
    else
      match parseFrame (rest.take len) with
      | .error e => .error e
      | .ok m => .ok (m, rest.drop len)

/-- Payload bounds of §4.1: every `u32` field fits in 32 bits and the frame
(1 tag byte plus the fields) fits in `MAX_FRAME_SIZE`. -/
def wfMsg : PeerMessage → Bool
  | .Choke | .Unchoke | .Interested | .NotInterested => true
  | .Have index => decide (index < 4294967296)
  | .Bitfield raw => decide (1 + raw.length ≤ MAX_FRAME_SIZE)
  | .Request index begin_ length =>
      decide (index < 4294967296) && decide (begin_ < 4294967296) && decide (length < 4294967296)
  | .Piece index begin_ piece =>
      decide (index < 4294967296) && decide (begin_ < 4294967296) &&
        decide (1 + (8 + piece.length) ≤ MAX_FRAME_SIZE)
  | .Cancel index begin_ length =>
      decide (index < 4294967296) && decide (begin_ < 4294967296) && decide (length < 4294967296)

theorem readU32_toBE32 (n : Nat) (h : n < 4294967296) :
    readU32 (toBE32 n) = some (n, []) := by
  have h2 := readU32_toBE32_append n h []
  simpa using h2

theorem decode_frame (L : Nat) (body : List Nat) (hL : body.length = L)
    (hmax : L ≤ MAX_FRAME_SIZE) :
    decode (toBE32 L ++ body) =
      match parseFrame body with
      | .error e => .error e
      | .ok m => .ok (m, ([] : List Nat)) := by
  have hlt : L < 4294967296 := by
    have : MAX_FRAME_SIZE = 2097152 := rfl
    omega
  simp only [decode, readU32_toBE32_append L hlt]
  rw [if_neg (by omega), if_neg (by omega), ← hL, List.take_length, List.drop_length]

theorem take4_toBE32_append (n : Nat) (l : List Nat) : (toBE32 n ++ l).take 4 = toBE32 n := by
  simp [toBE32]

/-- C4: for every peer message variant with payload fields within the §4.1
bounds, decoding the encoder's output yields exactly the message back with
nothing left over, and the 4-byte big-endian length prefix written by the
encoder equals 1 (the tag byte) plus the size of the variant's payload
fields. -/
theorem c4_codec_roundtrip (m : PeerMessage) (hm : wfMsg m = true) :
    decode (encode m) = .ok (some m, []) ∧
    (encode m).take 4 = toBE32 (1 + m.fieldsSize) := by
  cases m with
  | Choke => exact ⟨rfl, rfl⟩
  | Unchoke => exact ⟨rfl, rfl⟩
  | Interested => exact ⟨rfl, rfl⟩
  | NotInterested => exact ⟨rfl, rfl⟩
  | Have index =>
      simp only [wfMsg, decide_eq_true_eq] at hm
      refine ⟨?_, ?_⟩
      · rw [show encode (.Have index) = toBE32 (1 + 4) ++ (4 :: toBE32 index) from rfl,
          decode_frame (1 + 4) _ (by simp [toBE32]) (by norm_num [MAX_FRAME_SIZE])]
        simp [parseFrame, readU32_toBE32 index hm]
      · rw [show encode (.Have index) = toBE32 (1 + 4) ++ (4 :: toBE32 index) from rfl,
          take4_toBE32_append]
        rfl
  | Bitfield raw =>
      simp only [wfMsg, decide_eq_true_eq] at hm
      refine ⟨?_, ?_⟩
      · rw [show encode (.Bitfield raw) = toBE32 (1 + raw.length) ++ (5 :: raw) from rfl,
          decode_frame (1 + raw.length) _ (by simp only [List.length_cons]; omega) hm]
        simp [parseFrame]
      · rw [show encode (.Bitfield raw) = toBE32 (1 + raw.length) ++ (5 :: raw) from rfl,
          take4_toBE32_append]
        rfl
  | Request index begin_ length =>
      simp only [wfMsg, Bool.and_eq_true, decide_eq_true_eq] at hm
      obtain ⟨⟨hi, hb⟩, hl⟩ := hm
      refine ⟨?_, ?_⟩
      · rw [show encode (.Request index begin_ length) =
            toBE32 (1 + 3 * 4) ++ (6 :: (toBE32 index ++ toBE32 begin_ ++ toBE32 length)) from rfl,
          decode_frame (1 + 3 * 4) _ (by simp [toBE32]) (by norm_num [MAX_FRAME_SIZE])]
        simp [parseFrame, List.append_assoc, readU32_toBE32_append index hi,
          readU32_toBE32_append begin_ hb, readU32_toBE32 length hl]
      · rw [show encode (.Request index begin_ length) =
            toBE32 (1 + 3 * 4) ++ (6 :: (toBE32 index ++ toBE32 begin_ ++ toBE32 length)) from rfl,
          take4_toBE32_append]
        rfl
  | Piece index begin_ piece =>
      simp only [wfMsg, Bool.and_eq_true, decide_eq_true_eq] at hm
      obtain ⟨⟨hi, hb⟩, hsz⟩ := hm
      refine ⟨?_, ?_⟩
      · rw [show encode (.Piece index begin_ piece) =
            toBE32 (1 + (2 * 4 + piece.length)) ++
              (7 :: (toBE32 index ++ toBE32 begin_ ++ piece)) from rfl,
          decode_frame (1 + (2 * 4 + piece.length)) _ (by simp [toBE32]; omega) (by omega)]
        simp [parseFrame, List.append_assoc, readU32_toBE32_append index hi,
          readU32_toBE32_append begin_ hb]
      · rw [show encode (.Piece index begin_ piece) =
            toBE32 (1 + (2 * 4 + piece.length)) ++
              (7 :: (toBE32 index ++ toBE32 begin_ ++ piece)) from rfl,
          take4_toBE32_append]
        rfl
  | Cancel index begin_ length =>
      simp only [wfMsg, Bool.and_eq_true, decide_eq_true_eq] at hm
      obtain ⟨⟨hi, hb⟩, hl⟩ := hm
      refine ⟨?_, ?_⟩
      · rw [show encode (.Cancel index begin_ length) =
            toBE32 (1 + 3 * 4) ++ (8 :: (toBE32 index ++ toBE32 begin_ ++ toBE32 length)) from rfl,
          decode_frame (1 + 3 * 4) _ (by simp [toBE32]) (by norm_num [MAX_FRAME_SIZE])]
        simp [parseFrame, List.append_assoc, readU32_toBE32_append index hi,
          readU32_toBE32_append begin_ hb, readU32_toBE32 length hl]
      · rw [show encode (.Cancel index begin_ length) =
            toBE32 (1 + 3 * 4) ++ (8 :: (toBE32 index ++ toBE32 begin_ ++ toBE32 length)) from rfl,
          take4_toBE32_append]
        rfl

/-- Witness for C4 at the §8 concrete example REQUEST(3, 0, 16384). -/
theorem c4_codec_roundtrip_witness :
    wfMsg (.Request 3 0 16384) = true ∧
    decode (encode (.Request 3 0 16384)) = .ok (some (.Request 3 0 16384), []) ∧
    (encode (.Request 3 0 16384)).take 4 = toBE32 (1 + PeerMessage.fieldsSize (.Request 3 0 16384)) :=
  ⟨by decide, (c4_codec_roundtrip (.Request 3 0 16384) (by decide)).1,
    (c4_codec_roundtrip (.Request 3 0 16384) (by decide)).2⟩

/-! ## Handshake (`src/peer_protocol/handshake.rs`, `src/peers/download_worker.rs`) -/

/-- The 19 ASCII bytes of `PeerHandshake::PROTOCOL_PREFIX`,
`b"BitTorrent protocol"`. -/
def PROTOCOL_PSTR : List Nat :=
  [66, 105, 116, 84, 111, 114, 114, 101, 110, 116, 32, 112, 114, 111, 116, 111, 99, 111, 108]

/-- The `PeerHandshake` struct: length byte, 19 protocol-name bytes, 8
reserved bytes, 20-byte info hash, 20-byte peer id (68 bytes in all). -/
structure PeerHandshake where
  pstrlen : Nat
  pstr : List Nat
  reserved_bytes : List Nat
  info_hash : List Nat
  peer_id : List Nat
  deriving DecidableEq

/-- `PeerHandshake::new`. -/
def PeerHandshake.new (info_hash peer_id : List Nat) : PeerHandshake :=
  ⟨19, PROTOCOL_PSTR, List.replicate 8 0, info_hash, peer_id⟩

/-- `PeerHandshake::into_bytes`: the fields laid out in order (the Rust
transmute of the `repr(C)` byte-aligned struct). -/
def PeerHandshake.into_bytes (h : PeerHandshake) : List Nat :=
  h.pstrlen :: (h.pstr ++ h.reserved_bytes ++ h.info_hash ++ h.peer_id)

/-- `PeerHandshake::from_bytes`: the inverse transmute, splitting the 68
bytes at fixed offsets.  A protocol-name mismatch is only logged as a
warning; the function always succeeds. -/
def PeerHandshake.from_bytes (bytes : List Nat) : PeerHandshake :=
  ⟨bytes.headD 0, (bytes.drop 1).take 19, (bytes.drop 20).take 8,
   (bytes.drop 28).take 20, (bytes.drop 48).take 20⟩

/-- `PeerAddr::handshake` after the 68 reply bytes have been read
(`stream.read_exact`): the reply is parsed with `from_bytes` and the
connection is returned carrying the peer's advertised peer id.  The
expected info hash is used only to build our own outgoing handshake; the
reply's info hash field is never compared against it. -/
def handshake_after_read (reply : List Nat) (_expected_info_hash : List Nat) :
    Except String (List Nat) :=
  .ok (PeerHandshake.from_bytes reply).peer_id

/-- C3 counterexample: a well-formed 68-byte reply whose info hash field
(20 bytes of 1) differs from our expected info hash (20 bytes of 0) is
accepted — `handshake_after_read` returns the established connection
rather than failing with a `HandshakeMismatch`. -/
theorem c3_handshake_not_checked :
    (PeerHandshake.from_bytes
        (PeerHandshake.into_bytes
          (PeerHandshake.new (List.replicate 20 1) (List.replicate 20 2)))).info_hash ≠
      List.replicate 20 0 ∧
    handshake_after_read
        (PeerHandshake.into_bytes
          (PeerHandshake.new (List.replicate 20 1) (List.replicate 20 2)))
        (List.replicate 20 0) =
      .ok (List.replicate 20 2) := by
  constructor
  · decide
  · rfl

/-- C3 amended: after writing our handshake and reading exactly 68 bytes of
the reply, the reply is only parsed; a protocol-name difference merely
logs a warning, the info hash field is never compared to our expected info
hash, and the handshake operation always succeeds with the advertised peer
id — no `HandshakeMismatch` failure exists. -/
theorem c3_handshake_always_succeeds (reply expected : List Nat) :
    handshake_after_read reply expected =
      .ok (PeerHandshake.from_bytes reply).peer_id := rfl

/-! ## Piece download progress (`src/peers/progress.rs`)

`pending` is the `VecDeque<Requested>` as a list of `(block_id,
request_time)` pairs, head first.  `block_status` is the `Bitfield` as a
`List Bool`.  `Instant::now()` is an explicit `now` argument. -/

/-- Index of the first `false` bit, `block_status.iter_zeros().next()`. -/
def firstZero : List Bool → Option Nat
  | [] => none
  | b :: rest => if b then (firstZero rest).map (· + 1) else some 0

/-- Bit lookup with the out-of-range default `false`. -/
def getBit (l : List Bool) (i : Nat) : Bool := l.getD i false

/-- Removal of the first element satisfying `p` (the Rust
`find_map`-an-index-then-`remove(index)` pattern). -/
def removeFirst (p : α → Bool) : List α → List α
  | [] => []
  | x :: xs => if p x then xs else x :: removeFirst p xs

structure PieceDownloadProgress where
  piece_length : Nat
  pending : List (Nat × Nat)
  block_status : List Bool
  deriving DecidableEq

namespace PieceDownloadProgress

/-- `MAX_BLOCK_SIZE = 1 << 14` bytes. -/
def MAX_BLOCK_SIZE : Nat := 16384

/-- `MAX_PENDING_BLOCKS = 5`. -/
def MAX_PENDING_BLOCKS : Nat := 5

/-- `REQUEUE_TIMEOUT = 800` milliseconds. -/
def REQUEUE_TIMEOUT : Nat := 800

/-- `PieceDownloadProgress::new`: `div_ceil(piece_length, MAX_BLOCK_SIZE)`
blocks, all bits clear, empty pending queue. -/
def new (piece_length : Nat) : PieceDownloadProgress :=
  ⟨piece_length, [], List.replicate ((piece_length + MAX_BLOCK_SIZE - 1) / MAX_BLOCK_SIZE) false⟩

/-- `PieceDownloadProgress::get_block_info`. -/
def get_block_info (s : PieceDownloadProgress) (block_id : Nat) : Nat × Nat :=
  (block_id * MAX_BLOCK_SIZE, min (s.piece_length - block_id * MAX_BLOCK_SIZE) MAX_BLOCK_SIZE)

/-- The fall-through part of `next_block_info` once the head of `pending`
is absent or fresh: bail when the pipeline is full, else pick the lowest
zero bit, mark it requested and append it to `pending`. -/
def nextFresh (s : PieceDownloadProgress) (now : Nat) :
    PieceDownloadProgress × Option (Nat × Nat) :=
  if MAX_PENDING_BLOCKS ≤ s.pending.length then (s, none)
  else
    match firstZero s.block_status with
    | none => (s, none)
    | some block_id =>
        (⟨s.piece_length, s.pending ++ [(block_id, now)], s.block_status.set block_id true⟩,
         some (s.get_block_info block_id))

/-- `PieceDownloadProgress::next_block_info`: requeue a stale head (rotate
it to the tail with refreshed timestamp and return its info), otherwise
fall through to `nextFresh`. -/
def next_block_info (s : PieceDownloadProgress) (now : Nat) :
    PieceDownloadProgress × Option (Nat × Nat) :=
  match s.pending with
  | (block_id, t) :: rest =>
      if REQUEUE_TIMEOUT ≤ now - t then
        (⟨s.piece_length, rest ++ [(block_id, now)], s.block_status⟩,
         some (s.get_block_info block_id))
      else nextFresh s now
  | [] => nextFresh s now

/-- `PieceDownloadProgress::update_downloaded`: locate `offset / BLOCK` in
`pending`; absent is a protocol violation (`none`); otherwise remove it
and set its `block_status` bit. -/
def update_downloaded (s : PieceDownloadProgress) (offset : Nat) :
    Option PieceDownloadProgress :=
  let block_id := offset / MAX_BLOCK_SIZE
  if s.pending.any (fun r => r.1 == block_id) then
    some ⟨s.piece_length, removeFirst (fun r => r.1 == block_id) s.pending,
          s.block_status.set block_id true⟩
  else none

/-- `PieceDownloadProgress::reset_progress`: clear the bit of every block
still in `pending`, then clear `pending`. -/
def reset_progress (s : PieceDownloadProgress) : PieceDownloadProgress :=
  ⟨s.piece_length, [],
   s.pending.foldl (fun bs r => bs.set r.1 false) s.block_status⟩

/-- `PieceDownloadProgress::is_done`: `pending` empty and all bits set. -/
def is_done (s : PieceDownloadProgress) : Bool :=
  s.pending.isEmpty && s.block_status.all (fun b => b)

/-- The block ids currently in the pending queue. -/
def pendingIds (s : PieceDownloadProgress) : List Nat := s.pending.map Prod.fst

end PieceDownloadProgress

theorem getBit_set_self (l : List Bool) (i : Nat) (v : Bool) (h : i < l.length) :
    getBit (l.set i v) i = v := by
  unfold getBit
  rw [List.getD_eq_getElem?_getD, List.getElem?_set_self (by simpa using h)]
  rfl

theorem getBit_set_false_self (l : List Bool) (i : Nat) :
    getBit (l.set i false) i = false := by
  by_cases h : i < l.length
  · exact getBit_set_self l i false h
  · unfold getBit
    rw [List.set_eq_of_length_le (by omega)]
    rw [List.getD_eq_getElem?_getD, List.getElem?_eq_none (by omega)]
    rfl

theorem getBit_set_ne (l : List Bool) (i j : Nat) (v : Bool) (h : i ≠ j) :
    getBit (l.set i v) j = getBit l j := by
  unfold getBit
  rw [List.getD_eq_getElem?_getD, List.getD_eq_getElem?_getD, List.getElem?_set_ne h]

theorem getBit_oor (l : List Bool) (i : Nat) (h : l.length ≤ i) : getBit l i = false := by
  unfold getBit
  rw [List.getD_eq_getElem?_getD, List.getElem?_eq_none (by omega)]
  rfl

theorem getBit_replicate_false (n i : Nat) : getBit (List.replicate n false) i = false := by
  by_cases h : i < n
  · unfold getBit
    rw [List.getD_eq_getElem?_getD, List.getElem?_replicate_of_lt h]
    rfl
  · exact getBit_oor _ _ (by simpa using by omega)

theorem all_eq_true_iff_getBit (l : List Bool) :
    l.all (fun b => b) = true ↔ ∀ i < l.length, getBit l i = true := by
  induction l with
  | nil => simp
  | cons b rest ih =>
      simp only [List.all_cons, Bool.and_eq_true, ih, List.length_cons]
      constructor
      · rintro ⟨hb, hrest⟩ i hi
        match i with
        | 0 => simpa [getBit] using hb
        | j + 1 =>
            have : getBit (b :: rest) (j + 1) = getBit rest j := rfl
            rw [this]
            exact hrest j (by omega)
      · intro h
        refine ⟨by simpa [getBit] using h 0 (by omega), fun i hi => ?_⟩
        have : getBit rest i = getBit (b :: rest) (i + 1) := rfl
        rw [this]
        exact h (i + 1) (by omega)

theorem firstZero_cons_true (rest : List Bool) :
    firstZero (true :: rest) = (firstZero rest).map (· + 1) := by
  simp [firstZero]

theorem firstZero_cons_false (rest : List Bool) :
    firstZero (false :: rest) = some 0 := by
  simp [firstZero]

theorem firstZero_spec (l : List Bool) (i : Nat) (h : firstZero l = some i) :
    i < l.length ∧ getBit l i = false ∧ ∀ j < i, getBit l j = true := by
  induction l generalizing i with
  | nil => simp [firstZero] at h
  | cons b rest ih =>
      cases b with
      | true =>
          rw [firstZero_cons_true, Option.map_eq_some'] at h
          obtain ⟨i0, hi0, rfl⟩ := h
          obtain ⟨h1, h2, h3⟩ := ih i0 hi0
          refine ⟨by simp only [List.length_cons]; omega,
            by simpa [getBit] using h2, ?_⟩
          intro j hj
          match j with
          | 0 => rfl
          | k + 1 =>
              have hk : getBit (true :: rest) (k + 1) = getBit rest k := rfl
              rw [hk]
              exact h3 k (by omega)
      | false =>
          rw [firstZero_cons_false, Option.some_inj] at h
          subst h
          exact ⟨by simp, rfl, by omega⟩

theorem firstZero_eq_some (l : List Bool) (i : Nat) (h1 : i < l.length)
    (h2 : getBit l i = false) (h3 : ∀ j < i, getBit l j = true) :
    firstZero l = some i := by
  induction l generalizing i with
  | nil => simp at h1
  | cons b rest ih =>
      match i with
      | 0 =>
          have hb : b = false := by simpa [getBit] using h2
          subst hb
          exact firstZero_cons_false rest
      | k + 1 =>
          have hb : b = true := by
            have h0 := h3 0 (by omega)
            simpa [getBit] using h0
          subst hb
          have hr : firstZero rest = some k := by
            refine ih k (by simp only [List.length_cons] at h1; omega)
              (by simpa [getBit] using h2) ?_
            intro j hj
            have hjj : getBit rest j = getBit (true :: rest) (j + 1) := rfl
            rw [hjj]
            exact h3 (j + 1) (by omega)
          rw [firstZero_cons_true, hr]
          rfl

theorem mem_removeFirst {p : α → Bool} {l : List α} {x : α}
    (h : x ∈ removeFirst p l) : x ∈ l := by
  induction l with
  | nil => simp [removeFirst] at h
  | cons a as ih =>
      by_cases ha : p a = true
      · simp only [removeFirst, if_pos ha] at h
        exact List.mem_cons_of_mem a h
      · simp only [removeFirst, if_neg ha, List.mem_cons] at h
        rcases h with h | h
        · exact h ▸ List.mem_cons_self a as
        · exact List.mem_cons_of_mem a (ih h)

theorem mem_removeFirst_of_not_p {p : α → Bool} {l : List α} {x : α}
    (hx : p x = false) : x ∈ removeFirst p l ↔ x ∈ l := by
  induction l with
  | nil => simp [removeFirst]
  | cons a as ih =>
      by_cases ha : p a = true
      · have hxa : x ≠ a := fun h => by rw [h, ha] at hx; cases hx
        simp [removeFirst, if_pos ha, List.mem_cons, hxa]
      · simp [removeFirst, if_neg ha, List.mem_cons, ih]

theorem nodup_removeFirst {p : α → Bool} {l : List α} (h : l.Nodup) :
    (removeFirst p l).Nodup := by
  induction l with
  | nil => simp [removeFirst]
  | cons a as ih =>
      rw [List.nodup_cons] at h
      by_cases ha : p a = true
      · simpa [removeFirst, if_pos ha] using h.2
      · rw [removeFirst, if_neg ha, List.nodup_cons]
        exact ⟨fun hmem => h.1 (mem_removeFirst hmem), ih h.2⟩

theorem length_removeFirst_le {p : α → Bool} (l : List α) :
    (removeFirst p l).length ≤ l.length := by
  induction l with
  | nil => simp [removeFirst]
  | cons a as ih =>
      by_cases ha : p a = true
      · simp [removeFirst, if_pos ha]
      · simp only [removeFirst, if_neg ha, List.length_cons]
        omega

theorem not_mem_removeFirst_beq {l : List Nat} {bid : Nat} (h : l.Nodup) :
    bid ∉ removeFirst (fun b => b == bid) l := by
  induction l with
  | nil => simp [removeFirst]
  | cons a as ih =>
      rw [List.nodup_cons] at h
      by_cases ha : a = bid
      · subst ha
        simpa [removeFirst] using h.1
      · rw [removeFirst, if_neg (by simpa using ha)]
        intro hmem
        rcases List.mem_cons.mp hmem with rfl | hmem
        · exact ha rfl
        · exact ih h.2 hmem

theorem map_fst_removeFirst (l : List (Nat × Nat)) (bid : Nat) :
    (removeFirst (fun r => r.1 == bid) l).map Prod.fst =
      removeFirst (fun b => b == bid) (l.map Prod.fst) := by
  induction l with
  | nil => simp [removeFirst]
  | cons r rest ih =>
      cases hr : (r.1 == bid) with
      | true => simp [removeFirst, hr]
      | false => simp [removeFirst, hr, ih]

theorem any_fst_eq_true_iff (l : List (Nat × Nat)) (bid : Nat) :
    l.any (fun r => r.1 == bid) = true ↔ bid ∈ l.map Prod.fst := by
  simp [List.any_eq_true, List.mem_map, beq_iff_eq]

theorem length_foldl_clear (l : List (Nat × Nat)) (bs : List Bool) :
    (l.foldl (fun bs r => bs.set r.1 false) bs).length = bs.length := by
  induction l generalizing bs with
  | nil => rfl
  | cons r rest ih =>
      rw [List.foldl_cons, ih, List.length_set]

theorem getBit_foldl_clear (l : List (Nat × Nat)) (bs : List Bool) (i : Nat) :
    getBit (l.foldl (fun bs r => bs.set r.1 false) bs) i =
      (getBit bs i && !(l.any (fun r => r.1 == i))) := by
  induction l generalizing bs with
  | nil => simp
  | cons r rest ih =>
      rw [List.foldl_cons, ih]
      by_cases hr : r.1 = i
      · have h1 : getBit (bs.set r.1 false) i = false := by
          rw [hr]
          exact getBit_set_false_self bs i
        rw [h1]
        simp [List.any_cons, hr]
      · rw [getBit_set_ne _ _ _ _ hr]
        have hbe : (r.1 == i) = false := by simpa using hr
        simp [List.any_cons, hbe]

/-- Ghost-instrumented invariant of `PieceDownloadProgress`: `R` is the
list of block ids received so far (`update_downloaded` succeeded for
them).  Pending ids are distinct, in range and not yet received; a status
bit is set exactly when its block is pending or received; received ids are
in range. -/
def ProgressInv (s : PieceDownloadProgress) (R : List Nat) : Prop :=
  s.pendingIds.Nodup ∧
  (∀ b ∈ s.pendingIds, b < s.block_status.length ∧ b ∉ R) ∧
  (∀ i < s.block_status.length,
    (getBit s.block_status i = true ↔ i ∈ s.pendingIds ∨ i ∈ R)) ∧
  (∀ r ∈ R, r < s.block_status.length)

instance (s : PieceDownloadProgress) (R : List Nat) : Decidable (ProgressInv s R) := by
  unfold ProgressInv
  infer_instance

theorem progressInv_new (L : Nat) : ProgressInv (PieceDownloadProgress.new L) [] := by
  refine ⟨by simp [PieceDownloadProgress.new, PieceDownloadProgress.pendingIds], ?_, ?_, ?_⟩
  · simp [PieceDownloadProgress.new, PieceDownloadProgress.pendingIds]
  · intro i _
    simp [PieceDownloadProgress.new, PieceDownloadProgress.pendingIds,
      getBit_replicate_false]
  · simp

theorem next_block_info_eq_nil (s : PieceDownloadProgress) (now : Nat)
    (h : s.pending = []) : s.next_block_info now = s.nextFresh now := by
  simp [PieceDownloadProgress.next_block_info, h]

theorem next_block_info_eq_stale (s : PieceDownloadProgress) (now bid t : Nat)
    (rest : List (Nat × Nat)) (h : s.pending = (bid, t) :: rest)
    (hst : PieceDownloadProgress.REQUEUE_TIMEOUT ≤ now - t) :
    s.next_block_info now =
      (⟨s.piece_length, rest ++ [(bid, now)], s.block_status⟩,
       some (s.get_block_info bid)) := by
  simp [PieceDownloadProgress.next_block_info, h, hst]

theorem next_block_info_eq_fresh (s : PieceDownloadProgress) (now bid t : Nat)
    (rest : List (Nat × Nat)) (h : s.pending = (bid, t) :: rest)
    (hst : now - t < PieceDownloadProgress.REQUEUE_TIMEOUT) :
    s.next_block_info now = s.nextFresh now := by
  have hst' : ¬ PieceDownloadProgress.REQUEUE_TIMEOUT ≤ now - t := by omega
  simp [PieceDownloadProgress.next_block_info, h, hst']

theorem progressInv_nextFresh (s : PieceDownloadProgress) (R : List Nat) (now : Nat)
    (h : ProgressInv s R) : ProgressInv (s.nextFresh now).1 R := by
  obtain ⟨hnd, hpend, hbit, hR⟩ := h
  unfold PieceDownloadProgress.nextFresh
  by_cases hfull : PieceDownloadProgress.MAX_PENDING_BLOCKS ≤ s.pending.length
  · rw [if_pos hfull]
    exact ⟨hnd, hpend, hbit, hR⟩
  · rw [if_neg hfull]
    cases hfz : firstZero s.block_status with
    | none => exact ⟨hnd, hpend, hbit, hR⟩
    | some bid =>
        obtain ⟨hlt, hzero, _⟩ := firstZero_spec _ _ hfz
        have hnotmem : bid ∉ s.pendingIds ∧ bid ∉ R := by
          have hb := hbit bid hlt
          rw [hzero] at hb
          constructor
          · intro hc
            exact absurd (hb.mpr (Or.inl hc)) (by simp)
          · intro hc
            exact absurd (hb.mpr (Or.inr hc)) (by simp)
        have hids : PieceDownloadProgress.pendingIds
            ⟨s.piece_length, s.pending ++ [(bid, now)], s.block_status.set bid true⟩ =
            s.pendingIds ++ [bid] := by
          simp [PieceDownloadProgress.pendingIds]
        refine ⟨?_, ?_, ?_, ?_⟩
        · rw [hids]
          have hperm : (s.pendingIds ++ [bid]).Perm (bid :: s.pendingIds) :=
            List.perm_append_singleton bid s.pendingIds
          rw [hperm.nodup_iff, List.nodup_cons]
          exact ⟨hnotmem.1, hnd⟩
        · intro b hb
          rw [hids, List.mem_append] at hb
          rcases hb with hb | hb
          · have := hpend b hb
            simpa [List.length_set] using this
          · obtain rfl : b = bid := by simpa using hb
            exact ⟨by simpa [List.length_set] using hlt, hnotmem.2⟩
        · intro i hi
          rw [List.length_set] at hi
          rw [hids]
          by_cases hib : i = bid
          · subst hib
            rw [getBit_set_self _ _ _ hlt]
            simp
          · rw [getBit_set_ne _ _ _ _ (fun hc => hib hc.symm)]
            rw [hbit i hi]
            simp only [List.mem_append, List.mem_singleton]
            constructor
            · rintro (hm | hm)
              · exact Or.inl (Or.inl hm)
              · exact Or.inr hm
            · rintro ((hm | hm) | hm)
              · exact Or.inl hm
              · exact absurd hm hib
              · exact Or.inr hm
        · intro r hr
          simpa [List.length_set] using hR r hr

theorem progressInv_next (s : PieceDownloadProgress) (R : List Nat) (now : Nat)
    (h : ProgressInv s R) : ProgressInv (s.next_block_info now).1 R := by
  obtain ⟨hnd, hpend, hbit, hR⟩ := h
  cases hp : s.pending with
  | nil =>
      rw [next_block_info_eq_nil s now hp]
      exact progressInv_nextFresh s R now ⟨hnd, hpend, hbit, hR⟩
  | cons head rest =>
      obtain ⟨bid, t⟩ := head
      by_cases hstale : PieceDownloadProgress.REQUEUE_TIMEOUT ≤ now - t
      · rw [next_block_info_eq_stale s now bid t rest hp hstale]
        have hids : PieceDownloadProgress.pendingIds
            ⟨s.piece_length, rest ++ [(bid, now)], s.block_status⟩ =
            rest.map Prod.fst ++ [bid] := by
          simp [PieceDownloadProgress.pendingIds]
        have holdids : s.pendingIds = bid :: rest.map Prod.fst := by
          simp [PieceDownloadProgress.pendingIds, hp]
        have hperm : (rest.map Prod.fst ++ [bid]).Perm (bid :: rest.map Prod.fst) :=
          List.perm_append_singleton bid (rest.map Prod.fst)
        refine ⟨?_, ?_, ?_, ?_⟩
        · rw [hids, hperm.nodup_iff, ← holdids]
          exact hnd
        · intro b hb
          rw [hids] at hb
          have hb2 : b ∈ s.pendingIds := by
            rw [holdids, ← hperm.mem_iff]
            exact hb
          exact hpend b hb2
        · intro i hi
          rw [hids, hbit i hi, holdids]
          constructor
          · rintro (hm | hm)
            · exact Or.inl (hperm.mem_iff.mpr hm)
            · exact Or.inr hm
          · rintro (hm | hm)
            · exact Or.inl (hperm.mem_iff.mp hm)
            · exact Or.inr hm
        · intro r hr
          exact hR r hr
      · rw [next_block_info_eq_fresh s now bid t rest hp (by omega)]
        exact progressInv_nextFresh s R now ⟨hnd, hpend, hbit, hR⟩

theorem update_downloaded_eq_some (s : PieceDownloadProgress) (off : Nat)
    (s' : PieceDownloadProgress) (hup : s.update_downloaded off = some s') :
    s.pending.any (fun r => r.1 == off / PieceDownloadProgress.MAX_BLOCK_SIZE) = true ∧
    s' = ⟨s.piece_length,
          removeFirst (fun r => r.1 == off / PieceDownloadProgress.MAX_BLOCK_SIZE) s.pending,
          s.block_status.set (off / PieceDownloadProgress.MAX_BLOCK_SIZE) true⟩ := by
  simp only [PieceDownloadProgress.update_downloaded] at hup
  by_cases hany : s.pending.any (fun r => r.1 == off / PieceDownloadProgress.MAX_BLOCK_SIZE) = true
  · rw [if_pos hany] at hup
    injection hup with hup
    exact ⟨hany, hup.symm⟩
  · rw [if_neg hany] at hup
    cases hup

theorem progressInv_update (s : PieceDownloadProgress) (R : List Nat) (off : Nat)
    (s' : PieceDownloadProgress) (h : ProgressInv s R)
    (hup : s.update_downloaded off = some s') :
    ProgressInv s' (off / PieceDownloadProgress.MAX_BLOCK_SIZE :: R) := by
  obtain ⟨hnd, hpend, hbit, hR⟩ := h
  obtain ⟨hany, rfl⟩ := update_downloaded_eq_some s off s' hup
  have hmem : off / PieceDownloadProgress.MAX_BLOCK_SIZE ∈ s.pendingIds :=
    (any_fst_eq_true_iff _ _).mp hany
  obtain ⟨hblt, hbR⟩ := hpend _ hmem
  have hids : PieceDownloadProgress.pendingIds
      ⟨s.piece_length,
       removeFirst (fun r => r.1 == off / PieceDownloadProgress.MAX_BLOCK_SIZE) s.pending,
       s.block_status.set (off / PieceDownloadProgress.MAX_BLOCK_SIZE) true⟩ =
      removeFirst (fun b => b == off / PieceDownloadProgress.MAX_BLOCK_SIZE) s.pendingIds := by
    simp only [PieceDownloadProgress.pendingIds]
    exact map_fst_removeFirst _ _
  refine ⟨?_, ?_, ?_, ?_⟩
  · rw [hids]
    exact nodup_removeFirst hnd
  · intro b hb
    rw [hids] at hb
    have hbid : off / PieceDownloadProgress.MAX_BLOCK_SIZE ∉
        removeFirst (fun b => b == off / PieceDownloadProgress.MAX_BLOCK_SIZE) s.pendingIds :=
      not_mem_removeFirst_beq hnd
    have hbne : b ≠ off / PieceDownloadProgress.MAX_BLOCK_SIZE := fun hc => hbid (hc ▸ hb)
    obtain ⟨h1, h2⟩ := hpend b (mem_removeFirst hb)
    refine ⟨by simpa [List.length_set] using h1, ?_⟩
    intro hc
    rcases List.mem_cons.mp hc with hc | hc
    · exact hbne hc
    · exact h2 hc
  · intro i hi
    rw [List.length_set] at hi
    rw [hids]
    by_cases hib : i = off / PieceDownloadProgress.MAX_BLOCK_SIZE
    · subst hib
      rw [getBit_set_self _ _ _ hblt]
      simp [not_mem_removeFirst_beq hnd]
    · rw [getBit_set_ne _ _ _ _ (fun hc => hib hc.symm), hbit i hi,
        mem_removeFirst_of_not_p (by simpa using hib)]
      simp only [List.mem_cons]
      constructor
      · rintro (hm | hm)
        · exact Or.inl hm
        · exact Or.inr (Or.inr hm)
      · rintro (hm | hm | hm)
        · exact Or.inl hm
        · exact absurd hm hib
        · exact Or.inr hm
  · intro r hr
    rcases List.mem_cons.mp hr with rfl | hr
    · simpa [List.length_set] using hblt
    · simpa [List.length_set] using hR r hr

theorem progressInv_reset (s : PieceDownloadProgress) (R : List Nat)
    (h : ProgressInv s R) : ProgressInv s.reset_progress R := by
  obtain ⟨hnd, hpend, hbit, hR⟩ := h
  have hlen : (s.reset_progress).block_status.length = s.block_status.length :=
    length_foldl_clear s.pending s.block_status
  refine ⟨by simp [PieceDownloadProgress.reset_progress, PieceDownloadProgress.pendingIds],
    by simp [PieceDownloadProgress.reset_progress, PieceDownloadProgress.pendingIds], ?_, ?_⟩
  · intro i hi
    rw [hlen] at hi
    have hclear : getBit (s.reset_progress).block_status i =
        (getBit s.block_status i && !(s.pending.any (fun r => r.1 == i))) :=
      getBit_foldl_clear s.pending s.block_status i
    rw [hclear]
    by_cases hmem : i ∈ s.pendingIds
    · have hany : s.pending.any (fun r => r.1 == i) = true :=
        (any_fst_eq_true_iff _ _).mpr hmem
      rw [hany]
      simp [PieceDownloadProgress.pendingIds, PieceDownloadProgress.reset_progress,
        (hpend i hmem).2]
    · have hany : s.pending.any (fun r => r.1 == i) = false := by
        cases hca : s.pending.any (fun r => r.1 == i) with
        | false => rfl
        | true => exact absurd ((any_fst_eq_true_iff _ _).mp hca) hmem
      rw [hany]
      simp only [Bool.not_false, Bool.and_true]
      rw [hbit i hi]
      have hresetids : (s.reset_progress).pendingIds = [] := by
        simp [PieceDownloadProgress.pendingIds, PieceDownloadProgress.reset_progress]
      rw [hresetids]
      simp only [List.not_mem_nil, false_or]
      exact or_iff_right hmem
  · intro r hr
    rw [hlen]
    exact hR r hr

theorem is_done_iff_all_received (s : PieceDownloadProgress) (R : List Nat)
    (h : ProgressInv s R) :
    s.is_done = true ↔ ∀ i < s.block_status.length, i ∈ R := by
  obtain ⟨hnd, hpend, hbit, hR⟩ := h
  unfold PieceDownloadProgress.is_done
  rw [Bool.and_eq_true, all_eq_true_iff_getBit, List.isEmpty_iff]
  constructor
  · rintro ⟨hemp, hall⟩ i hi
    have hb := (hbit i hi).mp (hall i hi)
    rcases hb with hb | hb
    · rw [PieceDownloadProgress.pendingIds, hemp] at hb
      simp at hb
    · exact hb
  · intro hall
    have hemp : s.pending = [] := by
      cases hp : s.pending with
      | nil => rfl
      | cons r rest =>
          have hmem : r.1 ∈ s.pendingIds := by
            simp [PieceDownloadProgress.pendingIds, hp]
          obtain ⟨hlt, hnotR⟩ := hpend _ hmem
          exact absurd (hall _ hlt) hnotR
    exact ⟨hemp, fun i hi => (hbit i hi).mpr (Or.inr (hall i hi))⟩

theorem next_block_info_sets_bit (s : PieceDownloadProgress) (R : List Nat)
    (now : Nat) (s' : PieceDownloadProgress) (off blen : Nat) (h : ProgressInv s R)
    (hn : s.next_block_info now = (s', some (off, blen))) :
    getBit s'.block_status (off / PieceDownloadProgress.MAX_BLOCK_SIZE) = true ∧
    off / PieceDownloadProgress.MAX_BLOCK_SIZE ∉ R := by
  obtain ⟨hnd, hpend, hbit, hR⟩ := h
  have hdiv : ∀ bid : Nat, bid * PieceDownloadProgress.MAX_BLOCK_SIZE /
      PieceDownloadProgress.MAX_BLOCK_SIZE = bid := fun bid =>
    Nat.mul_div_cancel bid (by norm_num [PieceDownloadProgress.MAX_BLOCK_SIZE])
  have hfresh : s.nextFresh now = (s', some (off, blen)) →
      getBit s'.block_status (off / PieceDownloadProgress.MAX_BLOCK_SIZE) = true ∧
      off / PieceDownloadProgress.MAX_BLOCK_SIZE ∉ R := by
    intro hf
    unfold PieceDownloadProgress.nextFresh at hf
    by_cases hfull : PieceDownloadProgress.MAX_PENDING_BLOCKS ≤ s.pending.length
    · rw [if_pos hfull] at hf
      simp at hf
    · rw [if_neg hfull] at hf
      cases hfz : firstZero s.block_status with
      | none =>
          rw [hfz] at hf
          simp at hf
      | some bid =>
          rw [hfz] at hf
          simp only [Prod.mk.injEq, Option.some.injEq] at hf
          obtain ⟨hs', hinfo⟩ := hf
          obtain ⟨hlt, hzero, _⟩ := firstZero_spec _ _ hfz
          have hoff : off = bid * PieceDownloadProgress.MAX_BLOCK_SIZE := by
            have := hinfo
            simp [PieceDownloadProgress.get_block_info] at this
            exact this.1.symm
          rw [hoff, hdiv bid]
          constructor
          · rw [← hs']
            exact getBit_set_self _ _ _ hlt
          · intro hc
            have hb := (hbit bid hlt).mpr (Or.inr hc)
            rw [hzero] at hb
            cases hb
  cases hp : s.pending with
  | nil =>
      rw [next_block_info_eq_nil s now hp] at hn
      exact hfresh hn
  | cons head rest =>
      obtain ⟨bid, t⟩ := head
      by_cases hstale : PieceDownloadProgress.REQUEUE_TIMEOUT ≤ now - t
      · rw [next_block_info_eq_stale s now bid t rest hp hstale] at hn
        simp only [Prod.mk.injEq, Option.some.injEq] at hn
        obtain ⟨hs', hinfo⟩ := hn
        have hoff : off = bid * PieceDownloadProgress.MAX_BLOCK_SIZE := by
          simp [PieceDownloadProgress.get_block_info] at hinfo
          exact hinfo.1.symm
        have hmem : bid ∈ s.pendingIds := by
          simp [PieceDownloadProgress.pendingIds, hp]
        obtain ⟨hlt, hnotR⟩ := hpend _ hmem
        rw [hoff, hdiv bid]
        constructor
        · rw [← hs']
          exact (hbit bid hlt).mpr (Or.inl hmem)
        · exact hnotR
      · rw [next_block_info_eq_fresh s now bid t rest hp (by omega)] at hn
        exact hfresh hn

theorem nextFresh_length_le (s : PieceDownloadProgress) (now : Nat)
    (h : s.pending.length ≤ PieceDownloadProgress.MAX_PENDING_BLOCKS) :
    ((s.nextFresh now).1).pending.length ≤ PieceDownloadProgress.MAX_PENDING_BLOCKS := by
  have h5 : PieceDownloadProgress.MAX_PENDING_BLOCKS = 5 := rfl
  unfold PieceDownloadProgress.nextFresh
  by_cases hfull : PieceDownloadProgress.MAX_PENDING_BLOCKS ≤ s.pending.length
  · rw [if_pos hfull]
    exact h
  · rw [if_neg hfull]
    cases hfz : firstZero s.block_status with
    | none => exact h
    | some bid =>
        simp only [List.length_append, List.length_cons, List.length_nil]
        omega

/-- C5: every operation of `PieceDownloadProgress` (`next_block_info`,
`update_downloaded`, `reset_progress`) preserves `|pending| ≤
MAX_PENDING_BLOCKS = 5`, and after a successful `update_downloaded offset`
the `block_status` bit of block `offset / MAX_BLOCK_SIZE` is set and that
block id is no longer in `pending`. -/
theorem c5_progress_pipeline_invariant :
    (∀ (s : PieceDownloadProgress) (now : Nat),
       s.pending.length ≤ PieceDownloadProgress.MAX_PENDING_BLOCKS →
       ((s.next_block_info now).1).pending.length ≤ PieceDownloadProgress.MAX_PENDING_BLOCKS) ∧
    (∀ (s : PieceDownloadProgress) (off : Nat) (s' : PieceDownloadProgress),
       s.update_downloaded off = some s' →
       s.pending.length ≤ PieceDownloadProgress.MAX_PENDING_BLOCKS →
       s'.pending.length ≤ PieceDownloadProgress.MAX_PENDING_BLOCKS) ∧
    (∀ s : PieceDownloadProgress,
       ((s.reset_progress).pending.length ≤ PieceDownloadProgress.MAX_PENDING_BLOCKS)) ∧
    (∀ (s : PieceDownloadProgress) (off : Nat) (s' : PieceDownloadProgress),
       s.update_downloaded off = some s' →
       s.pendingIds.Nodup →
       (∀ b ∈ s.pendingIds, b < s.block_status.length) →
       getBit s'.block_status (off / PieceDownloadProgress.MAX_BLOCK_SIZE) = true ∧
       off / PieceDownloadProgress.MAX_BLOCK_SIZE ∉ s'.pendingIds) := by
  refine ⟨?_, ?_, ?_, ?_⟩
  · intro s now h
    cases hp : s.pending with
    | nil =>
        rw [next_block_info_eq_nil s now hp]
        exact nextFresh_length_le s now h
    | cons head rest =>
        obtain ⟨bid, t⟩ := head
        by_cases hstale : PieceDownloadProgress.REQUEUE_TIMEOUT ≤ now - t
        · rw [next_block_info_eq_stale s now bid t rest hp hstale]
          have hlen : s.pending.length = rest.length + 1 := by rw [hp]; rfl
          simp only [List.length_append, List.length_cons, List.length_nil]
          omega
        · rw [next_block_info_eq_fresh s now bid t rest hp (by omega)]
          exact nextFresh_length_le s now h
  · intro s off s' hup h
    obtain ⟨_, rfl⟩ := update_downloaded_eq_some s off s' hup
    exact le_trans (length_removeFirst_le s.pending) h
  · intro s
    simp [PieceDownloadProgress.reset_progress]
  · intro s off s' hup hnd hrange
    obtain ⟨hany, rfl⟩ := update_downloaded_eq_some s off s' hup
    have hmem : off / PieceDownloadProgress.MAX_BLOCK_SIZE ∈ s.pendingIds :=
      (any_fst_eq_true_iff _ _).mp hany
    refine ⟨getBit_set_self _ _ _ (hrange _ hmem), ?_⟩
    have hids : PieceDownloadProgress.pendingIds
        ⟨s.piece_length,
         removeFirst (fun r => r.1 == off / PieceDownloadProgress.MAX_BLOCK_SIZE) s.pending,
         s.block_status.set (off / PieceDownloadProgress.MAX_BLOCK_SIZE) true⟩ =
        removeFirst (fun b => b == off / PieceDownloadProgress.MAX_BLOCK_SIZE) s.pendingIds := by
      simp only [PieceDownloadProgress.pendingIds]
      exact map_fst_removeFirst _ _
    rw [hids]
    exact not_mem_removeFirst_beq hnd

/-- Witness for C5 on a two-block piece with block 1 pending. -/
theorem c5_progress_pipeline_invariant_witness :
    (((⟨32768, [(0, 0), (1, 0)], [true, true]⟩ :
        PieceDownloadProgress).next_block_info 0).1).pending.length ≤
      PieceDownloadProgress.MAX_PENDING_BLOCKS ∧
    ((⟨32768, [(0, 0)], [true, true]⟩ : PieceDownloadProgress).pending.length ≤
      PieceDownloadProgress.MAX_PENDING_BLOCKS) ∧
    (((⟨32768, [(0, 0), (1, 0)], [true, true]⟩ :
        PieceDownloadProgress).reset_progress).pending.length ≤
      PieceDownloadProgress.MAX_PENDING_BLOCKS) ∧
    (getBit (⟨32768, [(0, 0)], [true, true]⟩ : PieceDownloadProgress).block_status
        (16384 / PieceDownloadProgress.MAX_BLOCK_SIZE) = true ∧
      16384 / PieceDownloadProgress.MAX_BLOCK_SIZE ∉
        PieceDownloadProgress.pendingIds (⟨32768, [(0, 0)], [true, true]⟩ :
          PieceDownloadProgress)) :=
  ⟨c5_progress_pipeline_invariant.1 ⟨32768, [(0, 0), (1, 0)], [true, true]⟩ 0 (by decide),
   c5_progress_pipeline_invariant.2.1 ⟨32768, [(0, 0), (1, 0)], [true, true]⟩ 16384
     ⟨32768, [(0, 0)], [true, true]⟩ (by decide) (by decide),
   c5_progress_pipeline_invariant.2.2.1 ⟨32768, [(0, 0), (1, 0)], [true, true]⟩,
   c5_progress_pipeline_invariant.2.2.2 ⟨32768, [(0, 0), (1, 0)], [true, true]⟩ 16384
     ⟨32768, [(0, 0)], [true, true]⟩ (by decide) (by decide) (by decide)⟩

/-- C6: if the head of `pending` has aged at least `REQUEUE_TIMEOUT = 800`
milliseconds, `next_block_info` removes it from the head, re-appends it at
the tail with the refreshed timestamp `now`, and returns that block's
(offset, length); the requeue leaves `|pending|` unchanged, and a fresh
head is never rotated (the queue is only ever extended at the tail). -/
theorem c6_requeue_stale_head (s : PieceDownloadProgress) (bid t : Nat)
    (rest : List (Nat × Nat)) (now : Nat) (hp : s.pending = (bid, t) :: rest)
    (hstale : PieceDownloadProgress.REQUEUE_TIMEOUT ≤ now - t) :
    s.next_block_info now =
      (⟨s.piece_length, rest ++ [(bid, now)], s.block_status⟩,
       some (bid * PieceDownloadProgress.MAX_BLOCK_SIZE,
             min (s.piece_length - bid * PieceDownloadProgress.MAX_BLOCK_SIZE)
               PieceDownloadProgress.MAX_BLOCK_SIZE)) ∧
    ((s.next_block_info now).1).pending.length = s.pending.length ∧
    (∀ now₂, now₂ - t < PieceDownloadProgress.REQUEUE_TIMEOUT →
       ∃ tail, ((s.next_block_info now₂).1).pending = s.pending ++ tail) := by
  refine ⟨next_block_info_eq_stale s now bid t rest hp hstale, ?_, ?_⟩
  · rw [next_block_info_eq_stale s now bid t rest hp hstale, hp]
    simp
  · intro now₂ hfresh
    rw [next_block_info_eq_fresh s now₂ bid t rest hp hfresh]
    unfold PieceDownloadProgress.nextFresh
    by_cases hfull : PieceDownloadProgress.MAX_PENDING_BLOCKS ≤ s.pending.length
    · rw [if_pos hfull]
      exact ⟨[], by simp⟩
    · rw [if_neg hfull]
      cases hfz : firstZero s.block_status with
      | none => exact ⟨[], by simp⟩
      | some bid₂ => exact ⟨[(bid₂, now₂)], rfl⟩

/-- Witness for C6: head block 0 requested at time 0, queried at time 800. -/
theorem c6_requeue_stale_head_witness :
    (⟨32768, [(0, 0), (1, 100)], [true, true]⟩ :
        PieceDownloadProgress).next_block_info 800 =
      (⟨32768, [(1, 100)] ++ [(0, 800)], [true, true]⟩,
       some (0 * PieceDownloadProgress.MAX_BLOCK_SIZE,
             min (32768 - 0 * PieceDownloadProgress.MAX_BLOCK_SIZE)
               PieceDownloadProgress.MAX_BLOCK_SIZE)) ∧
    (((⟨32768, [(0, 0), (1, 100)], [true, true]⟩ :
        PieceDownloadProgress).next_block_info 800).1).pending.length =
      (⟨32768, [(0, 0), (1, 100)], [true, true]⟩ :
        PieceDownloadProgress).pending.length ∧
    (∀ now₂, now₂ - 0 < PieceDownloadProgress.REQUEUE_TIMEOUT →
       ∃ tail, (((⟨32768, [(0, 0), (1, 100)], [true, true]⟩ :
         PieceDownloadProgress).next_block_info now₂).1).pending =
           (⟨32768, [(0, 0), (1, 100)], [true, true]⟩ :
             PieceDownloadProgress).pending ++ tail) :=
  c6_requeue_stale_head ⟨32768, [(0, 0), (1, 100)], [true, true]⟩ 0 0 [(1, 100)] 800
    rfl (by decide)

theorem reset_clears_pending_bit (s : PieceDownloadProgress) (i : Nat)
    (hmem : i ∈ s.pendingIds) :
    getBit (s.reset_progress).block_status i = false := by
  have hclear : getBit (s.reset_progress).block_status i =
      (getBit s.block_status i && !(s.pending.any (fun r => r.1 == i))) :=
    getBit_foldl_clear s.pending s.block_status i
  rw [hclear, (any_fst_eq_true_iff _ _).mpr hmem]
  simp

theorem reset_keeps_bit (s : PieceDownloadProgress) (i : Nat)
    (hmem : i ∉ s.pendingIds) :
    getBit (s.reset_progress).block_status i = getBit s.block_status i := by
  have hclear : getBit (s.reset_progress).block_status i =
      (getBit s.block_status i && !(s.pending.any (fun r => r.1 == i))) :=
    getBit_foldl_clear s.pending s.block_status i
  have hany : s.pending.any (fun r => r.1 == i) = false := by
    cases hca : s.pending.any (fun r => r.1 == i) with
    | false => rfl
    | true => exact absurd ((any_fst_eq_true_iff _ _).mp hca) hmem
  rw [hclear, hany]
  simp

/-- C7: `reset_progress` (called on CHOKE) empties `pending` and clears
exactly the bits of the blocks that were in `pending`, leaving every other
bit unchanged; consequently, after a CHOKE/UNCHOKE cycle, when the head of
`pending` was the lowest pending block id and every block below it was
completed, the next `next_block_info` hands out that same head block
again. -/
theorem c7_reset_choke_unchoke :
    (∀ s : PieceDownloadProgress, (s.reset_progress).pending = []) ∧
    (∀ (s : PieceDownloadProgress) (i : Nat), i ∈ s.pendingIds →
       getBit (s.reset_progress).block_status i = false) ∧
    (∀ (s : PieceDownloadProgress) (i : Nat), i ∉ s.pendingIds →
       getBit (s.reset_progress).block_status i = getBit s.block_status i) ∧
    (∀ (s : PieceDownloadProgress) (b1 t : Nat) (rest : List (Nat × Nat)) (now : Nat),
       s.pending = (b1, t) :: rest →
       (∀ b ∈ s.pendingIds, b1 ≤ b) →
       (∀ j < b1, getBit s.block_status j = true) →
       b1 < s.block_status.length →
       ((s.reset_progress).next_block_info now).2 =
         some (b1 * PieceDownloadProgress.MAX_BLOCK_SIZE,
               min (s.piece_length - b1 * PieceDownloadProgress.MAX_BLOCK_SIZE)
                 PieceDownloadProgress.MAX_BLOCK_SIZE)) := by
  refine ⟨fun s => rfl, reset_clears_pending_bit, reset_keeps_bit, ?_⟩
  intro s b1 t rest now hp hmin hbelow hlt
  have hmem : b1 ∈ s.pendingIds := by
    simp [PieceDownloadProgress.pendingIds, hp]
  have hfz : firstZero (s.reset_progress).block_status = some b1 := by
    refine firstZero_eq_some _ _ ?_ ?_ ?_
    · exact lt_of_lt_of_eq hlt (length_foldl_clear s.pending s.block_status).symm
    · exact reset_clears_pending_bit s b1 hmem
    · intro j hj
      have hjnot : j ∉ s.pendingIds := fun hc => by
        have := hmin j hc
        omega
      rw [reset_keeps_bit s j hjnot]
      exact hbelow j hj
  rw [next_block_info_eq_nil _ now rfl]
  unfold PieceDownloadProgress.nextFresh
  rw [if_neg (by simp [PieceDownloadProgress.reset_progress,
        PieceDownloadProgress.MAX_PENDING_BLOCKS]), hfz]
  rfl

/-- Witness for C7 at the §8 scenario: pending `[b0, b1]` on a two-block
piece, all bits requested, head `b0 = 0`. -/
theorem c7_reset_choke_unchoke_witness :
    ((⟨32768, [(0, 0), (1, 0)], [true, true]⟩ :
        PieceDownloadProgress).reset_progress).pending = [] ∧
    getBit ((⟨32768, [(0, 0), (1, 0)], [true, true]⟩ :
        PieceDownloadProgress).reset_progress).block_status 0 = false ∧
    (((⟨32768, [(0, 0), (1, 0)], [true, true]⟩ :
        PieceDownloadProgress).reset_progress).next_block_info 0).2 =
      some (0 * PieceDownloadProgress.MAX_BLOCK_SIZE,
            min (32768 - 0 * PieceDownloadProgress.MAX_BLOCK_SIZE)
              PieceDownloadProgress.MAX_BLOCK_SIZE) :=
  ⟨c7_reset_choke_unchoke.1 ⟨32768, [(0, 0), (1, 0)], [true, true]⟩,
   c7_reset_choke_unchoke.2.1 ⟨32768, [(0, 0), (1, 0)], [true, true]⟩ 0 (by decide),
   c7_reset_choke_unchoke.2.2.2 ⟨32768, [(0, 0), (1, 0)], [true, true]⟩ 0 0 [(1, 0)] 0
     rfl (by decide) (by decide) (by decide)⟩

/-- C10: the `block_status` bit of a block is set the moment the block is
handed out by `next_block_info` (and is not a received block yet); the
ghost invariant `ProgressInv` — a set bit whose block is not pending is a
received block — holds initially and is preserved by every operation; and
under it `is_done` holds exactly when every one of the piece's blocks has
been received. -/
theorem c10_is_done_iff_received :
    (∀ L : Nat, ProgressInv (PieceDownloadProgress.new L) []) ∧
    (∀ (s : PieceDownloadProgress) (R : List Nat) (now : Nat),
       ProgressInv s R → ProgressInv (s.next_block_info now).1 R) ∧
    (∀ (s : PieceDownloadProgress) (R : List Nat) (off : Nat) (s' : PieceDownloadProgress),
       ProgressInv s R → s.update_downloaded off = some s' →
       ProgressInv s' (off / PieceDownloadProgress.MAX_BLOCK_SIZE :: R)) ∧
    (∀ (s : PieceDownloadProgress) (R : List Nat),
       ProgressInv s R → ProgressInv s.reset_progress R) ∧
    (∀ (s : PieceDownloadProgress) (R : List Nat) (now : Nat)
       (s' : PieceDownloadProgress) (off blen : Nat),
       ProgressInv s R → s.next_block_info now = (s', some (off, blen)) →
       getBit s'.block_status (off / PieceDownloadProgress.MAX_BLOCK_SIZE) = true ∧
       off / PieceDownloadProgress.MAX_BLOCK_SIZE ∉ R) ∧
    (∀ (s : PieceDownloadProgress) (R : List Nat),
       ProgressInv s R → (s.is_done = true ↔ ∀ i < s.block_status.length, i ∈ R)) :=
  ⟨progressInv_new, progressInv_next, progressInv_update, progressInv_reset,
   next_block_info_sets_bit, is_done_iff_all_received⟩

/-- Witness for C10 on a two-block piece with block 0 pending. -/
theorem c10_is_done_iff_received_witness :
    ProgressInv (PieceDownloadProgress.new 32768) [] ∧
    ProgressInv ((⟨32768, [(0, 0)], [true, false]⟩ :
      PieceDownloadProgress).next_block_info 0).1 [] ∧
    ProgressInv (⟨32768, [], [true, false]⟩ : PieceDownloadProgress)
      (0 / PieceDownloadProgress.MAX_BLOCK_SIZE :: []) ∧
    ProgressInv ((⟨32768, [(0, 0)], [true, false]⟩ :
      PieceDownloadProgress).reset_progress) [] ∧
    (getBit (⟨32768, [(0, 800)], [true, false]⟩ :
        PieceDownloadProgress).block_status (0 / PieceDownloadProgress.MAX_BLOCK_SIZE) = true ∧
      0 / PieceDownloadProgress.MAX_BLOCK_SIZE ∉ ([] : List Nat)) ∧
    ((⟨32768, [(0, 0)], [true, false]⟩ : PieceDownloadProgress).is_done = true ↔
      ∀ i < (⟨32768, [(0, 0)], [true, false]⟩ :
        PieceDownloadProgress).block_status.length, i ∈ ([] : List Nat)) :=
  ⟨c10_is_done_iff_received.1 32768,
   c10_is_done_iff_received.2.1 ⟨32768, [(0, 0)], [true, false]⟩ [] 0 (by decide),
   c10_is_done_iff_received.2.2.1 ⟨32768, [(0, 0)], [true, false]⟩ [] 0
     ⟨32768, [], [true, false]⟩ (by decide) (by decide),
   c10_is_done_iff_received.2.2.2.1 ⟨32768, [(0, 0)], [true, false]⟩ [] (by decide),
   c10_is_done_iff_received.2.2.2.2.1 ⟨32768, [(0, 0)], [true, false]⟩ [] 800
     ⟨32768, [(0, 800)], [true, false]⟩ 0 16384 (by decide) (by decide),
   c10_is_done_iff_received.2.2.2.2.2 ⟨32768, [(0, 0)], [true, false]⟩ [] (by decide)⟩

/-! ## Peer session message handling (`src/peers/download_worker.rs`) -/

/-- The PIECE arm of `PeerDownloadWorker::handle_peer_message` (the arm in
`WorkerState::handle_peer_message` is identical): bail when the received
index is not the piece being downloaded, run
`update_downloaded(begin)`, then `piece.extend(block)` — the block bytes
are APPENDED to the piece buffer, not written at offset `begin`. -/
def handle_piece_message (piece_id recv_index begin_ : Nat) (block : List Nat)
    (piece : List Nat) (prog : PieceDownloadProgress) :
    Option (List Nat × PieceDownloadProgress) :=
  if piece_id ≠ recv_index then none
  else
    match prog.update_downloaded begin_ with
    | none => none
    | some prog2 => some (piece ++ block, prog2)

/-- Folding `handle_piece_message` over a sequence of arriving PIECE
messages `(index, begin, block)`, in wire order. -/
def handle_piece_messages (piece_id : Nat) :
    List (Nat × Nat × List Nat) → List Nat → PieceDownloadProgress →
    Option (List Nat × PieceDownloadProgress)
  | [], piece, prog => some (piece, prog)
  | (idx, bgn, blk) :: rest, piece, prog =>
      match handle_piece_message piece_id idx bgn blk piece prog with
      | none => none
      | some (p2, g2) => handle_piece_messages piece_id rest p2 g2

/-- The first 16 KiB block of a two-block piece (all bytes 0). -/
def blockA : List Nat := List.replicate 16384 0

/-- The second 16 KiB block of a two-block piece (all bytes 1). -/
def blockB : List Nat := List.replicate 16384 1

/-- C1 counterexample: on a 32 KiB piece with both blocks pending, when the
block at offset 16384 arrives before the block at offset 0 (allowed by the
protocol), both PIECE messages are accepted and the piece is reported
done, but the assembled buffer is `blockB ++ blockA` — the blocks in
arrival order — which differs from the piece content in piece-file order
`blockA ++ blockB`.  The handler appends instead of writing at offset
`begin`. -/
theorem c1_blocks_appended_not_placed :
    handle_piece_messages 0 [(0, 16384, blockB), (0, 0, blockA)] []
        ⟨32768, [(0, 0), (1, 0)], [true, true]⟩ =
      some (blockB ++ blockA, ⟨32768, [], [true, true]⟩) ∧
    (⟨32768, [], [true, true]⟩ : PieceDownloadProgress).is_done = true ∧
    blockB ++ blockA ≠ blockA ++ blockB := by
  refine ⟨rfl, rfl, ?_⟩
  intro h
  have hA : blockA = 0 :: List.replicate 16383 0 := by
    rw [blockA, show (16384 : Nat) = 16383 + 1 from rfl, List.replicate_succ]
  have hB : blockB = 1 :: List.replicate 16383 1 := by
    rw [blockB, show (16384 : Nat) = 16383 + 1 from rfl, List.replicate_succ]
  rw [hA, hB, List.cons_append, List.cons_append] at h
  injection h with h1 _
  exact one_ne_zero h1

/-! ## Hash check and submission (`src/peers/download_worker.rs` `run` /
`download_piece`, `src/peers/worker_fsm.rs` `transition`) -/

/-- Tail of `PeerDownloadWorker::download_piece`: once `is_done`, compute
the SHA-1 of the assembled piece (the digest function is the external
`sha1_smol` crate, taken as a parameter) and bail when it differs from the
assigned hash. -/
def download_piece_result (sha1 : List Nat → List Nat) (expected piece : List Nat) :
    Option (List Nat) :=
  if sha1 piece ≠ expected then none else some piece

/-- `PeerDownloadWorker::run`: submit through the piece handle only when
`download_piece` returned the piece; on failure nothing is submitted (the
handle is dropped, releasing the lease). -/
def run_submitted (sha1 : List Nat → List Nat) (expected piece : List Nat) :
    Option (List Nat) :=
  match download_piece_result sha1 expected piece with
  | some p => some p
  | none => none

/-- `PiecePicker::run` channel handling: a piece-queue entry is removed
only when a completed piece for it actually arrives on the completion
channel. -/
def picker_receive (queue : List (Nat × Nat)) :
    Option (Nat × List Nat) → List (Nat × Nat)
  | none => queue
  | some (pid, _) => removeFirst (fun e => e.1 == pid) queue

/-- The `is_done` branch of `WorkerState::transition` in
`worker_fsm.rs`: the SHA-1 of the piece is computed and compared with the
assigned hash, but the result is only logged (the source carries a TODO
"what should happen if hash fails?"); the `DonePiece` alert is sent on the
completion channel unconditionally and the state is set to `Idle`. -/
def fsm_on_done (_sha1 : List Nat → List Nat) (_hash : List Nat)
    (index : Nat) (piece : List Nat) : Option (Nat × List Nat) × Bool :=
  (some (index, piece), true)

/-- C2: in `PeerDownloadWorker::run` a piece whose SHA-1 differs from the
assigned hash is not submitted and its record stays in the picker queue;
but the parallel `WorkerState::transition` path sends the `DonePiece`
completion alert even when the hash check fails. -/
theorem c2_hash_mismatch_no_submit :
    (∀ (sha1 : List Nat → List Nat) (expected piece : List Nat),
       sha1 piece ≠ expected →
       run_submitted sha1 expected piece = none ∧
       ∀ (queue : List (Nat × Nat)) (pid : Nat),
         picker_receive queue
           ((run_submitted sha1 expected piece).map (fun p => (pid, p))) = queue) ∧
    (fsm_on_done (fun _ => List.replicate 20 0) (List.replicate 20 1) 0 [5] =
       (some (0, [5]), true) ∧
     (fun _ : List Nat => List.replicate 20 0) [5] ≠ List.replicate 20 1) := by
  refine ⟨?_, rfl, by decide⟩
  intro sha1 expected piece hne
  have hrun : run_submitted sha1 expected piece = none := by
    unfold run_submitted download_piece_result
    rw [if_pos hne]
  exact ⟨hrun, fun queue pid => by rw [hrun]; rfl⟩

/-- Witness for C2: a digest function that hashes everything to `[0]`
against expected hash `[1]`. -/
theorem c2_hash_mismatch_no_submit_witness :
    ((fun _ : List Nat => [0]) [] : List Nat) ≠ [1] ∧
    run_submitted (fun _ => [0]) [1] [] = none ∧
    ∀ (queue : List (Nat × Nat)) (pid : Nat),
      picker_receive queue
        ((run_submitted (fun _ => [0]) [1] []).map (fun p => (pid, p))) = queue :=
  ⟨by decide,
   (c2_hash_mismatch_no_submit.1 (fun _ => [0]) [1] [] (by decide)).1,
   (c2_hash_mismatch_no_submit.1 (fun _ => [0]) [1] [] (by decide)).2⟩

/-! ## Piece picker lease acquisition
(`src/piece_picker/piece_picker_handle.rs`) -/

namespace PiecePickerHandle

/-- `PiecePickerHandle::next_piece`: scan the queue (a `BTreeMap`, iterated
in ascending piece-id order) for the first piece whose bit is set in the
session's bitfield and whose per-piece mutex can be acquired without
blocking (`lock_pool.try_lock`).  `held` is the set of piece ids whose
mutexes are currently held; a successful acquisition adds the piece to
it.  `none` models the loop falling through to the `IDLE_WAIT` sleep. -/
def next_piece (queue : List Nat) (bf : List Bool) (held : List Nat) :
    Option (Nat × List Nat) :=
  match queue with
  | [] => none
  | pid :: rest =>
      if getBit bf pid then
        if pid ∈ held then next_piece rest bf held
        else some (pid, pid :: held)
      else next_piece rest bf held

theorem next_piece_acquires (queue : List Nat) (bf : List Bool)
    (held : List Nat) (pid : Nat) (held' : List Nat)
    (h : next_piece queue bf held = some (pid, held')) :
    pid ∉ held ∧ held' = pid :: held := by
  induction queue with
  | nil => simp [next_piece] at h
  | cons q rest ih =>
      rw [next_piece] at h
      by_cases hbf : getBit bf q = true
      · rw [if_pos hbf] at h
        by_cases hheld : q ∈ held
        · rw [if_pos hheld] at h
          exact ih h
        · rw [if_neg hheld] at h
          injection h with h
          have h1 : q = pid := congrArg Prod.fst h
          have h2 : q :: held = held' := congrArg Prod.snd h
          subst h1
          subst h2
          exact ⟨hheld, rfl⟩
      · rw [if_neg (by simpa using hbf)] at h
        exact ih h

end PiecePickerHandle

/-- C8: a `next_piece` success returns a piece whose mutex was free and
records it as held, and as long as it is held no further `next_piece`
call — over any queue and any bitfield — can return the same piece id. -/
theorem c8_at_most_one_lease (queue : List Nat) (bf : List Bool)
    (held : List Nat) (pid : Nat) (held' : List Nat)
    (h : PiecePickerHandle.next_piece queue bf held = some (pid, held')) :
    pid ∉ held ∧ held' = pid :: held ∧
    ∀ (queue₂ : List Nat) (bf₂ : List Bool) (pid₂ : Nat) (held₂ : List Nat),
      PiecePickerHandle.next_piece queue₂ bf₂ held' = some (pid₂, held₂) →
      pid₂ ≠ pid := by
  obtain ⟨hfree, rfl⟩ := PiecePickerHandle.next_piece_acquires queue bf held pid held' h
  refine ⟨hfree, rfl, ?_⟩
  intro queue₂ bf₂ pid₂ held₂ h₂ hc
  subst hc
  exact (PiecePickerHandle.next_piece_acquires queue₂ bf₂ _ _ _ h₂).1 (List.mem_cons_self _ _)

/-- Witness for C8: queue `[0, 1]`, bitfield `[true, true]`, piece 0
already leased: the call leases piece 1, and no call on the resulting
state can lease 1 again. -/
theorem c8_at_most_one_lease_witness :
    (1 : Nat) ∉ [0] ∧ ([1, 0] : List Nat) = 1 :: [0] ∧
    ∀ (queue₂ : List Nat) (bf₂ : List Bool) (pid₂ : Nat) (held₂ : List Nat),
      PiecePickerHandle.next_piece queue₂ bf₂ [1, 0] = some (pid₂, held₂) →
      pid₂ ≠ 1 :=
  c8_at_most_one_lease [0, 1] [true, true] [0] 1 [1, 0] (by decide)

/-! ## HAVE handling (`src/peers/download_worker.rs`) -/

/-- `bitvec`'s `BitVec::set`, which PANICS when the index is out of range;
the panic is modelled as `none`. -/
def bitvec_set (bf : List Bool) (i : Nat) (v : Bool) : Option (List Bool) :=
  if i < bf.length then some (bf.set i v) else none

/-- The HAVE arm of `PeerDownloadWorker::handle_peer_message`:
`self.bitfield.set(piece_index as usize, true)` with no bounds check. -/
def handle_have (bf : List Bool) (piece_index : Nat) : Option (List Bool) :=
  bitvec_set bf piece_index true

/-- C9 counterexample: on a recorded peer bitfield of 8 bits, HAVE(8) makes
the handler call `BitVec::set` out of range, which panics (modelled
`none`) instead of raising a protocol error, while an in-range HAVE(3)
sets bit 3 as the claim describes. -/
theorem c9_have_out_of_range_panics :
    handle_have (List.replicate 8 false) 8 = none ∧
    handle_have (List.replicate 8 false) 3 =
      some ((List.replicate 8 false).set 3 true) := ⟨rfl, rfl⟩

end CruxTorrent
